import Mathlib

/-!
Verification of the ViewerAtlas audience-overlap pipeline.

This file shallowly embeds the core components of the repository
(GraphBuilder, DataAggregator, CommunityDetector and its greedy fallback,
ClusterTagger) as executable Lean definitions translated from the Python
source, and proves the behavioural claims about them.

Modelling conventions:
- Python dicts become association lists (insertion order preserved);
  `dict.get(k, d)` becomes an `Option`-valued lookup with `getD`.
- Python sets of strings become `Finset String`.
- Python ints become `Int` or `Nat`; the float percentage comparisons in
  the tagger (`freq / n * 100 >= 60` etc.) are modelled exactly over the
  rationals as `60 * n ≤ 100 * freq`.
-/

namespace ViewerAtlas

/-- Association-list lookup, the model of Python `dict.__getitem__`/`get`. -/
def lookupM {κ α : Type} [DecidableEq κ] : List (κ × α) → κ → Option α
  | [], _ => none
  | (k, v) :: rest, k0 => if k = k0 then some v else lookupM rest k0

/-- Association-list update-or-append, the model of Python `dict.__setitem__`
(dicts keep insertion order: existing keys are updated in place, new keys
are appended). -/
def setIn {κ α : Type} [DecidableEq κ] : List (κ × α) → κ → α → List (κ × α)
  | [], k0, v0 => [(k0, v0)]
  | (k, v) :: rest, k0, v0 =>
      if k = k0 then (k, v0) :: rest else (k, v) :: setIn rest k0 v0

theorem lookupM_setIn_self {κ α : Type} [DecidableEq κ]
    (m : List (κ × α)) (k : κ) (v : α) : lookupM (setIn m k v) k = some v := by
  induction m with
  | nil => simp [setIn, lookupM]
  | cons p rest ih =>
      obtain ⟨k', v'⟩ := p
      by_cases h : k' = k <;> simp [setIn, lookupM, h, ih]

theorem lookupM_setIn_other {κ α : Type} [DecidableEq κ]
    (m : List (κ × α)) (k k' : κ) (v : α) (h : k' ≠ k) :
    lookupM (setIn m k v) k' = lookupM m k' := by
  have hne : k ≠ k' := fun hk => h hk.symm
  induction m with
  | nil => simp [setIn, lookupM, hne]
  | cons p rest ih =>
      obtain ⟨k0, v0⟩ := p
      by_cases h0 : k0 = k
      · subst h0
        simp [setIn, lookupM, hne]
      · simp [setIn, lookupM, h0, ih]

theorem lookupM_mem {κ α : Type} [DecidableEq κ]
    {m : List (κ × α)} {k : κ} {v : α} (h : lookupM m k = some v) : (k, v) ∈ m := by
  induction m with
  | nil => simp [lookupM] at h
  | cons p rest ih =>
      obtain ⟨k0, v0⟩ := p
      by_cases h0 : k0 = k
      · subst h0
        simp [lookupM] at h
        simp [h]
      · simp [lookupM, h0] at h
        exact List.mem_cons_of_mem _ (ih h)

theorem lookupM_eq_of_keys_nodup {κ α : Type} [DecidableEq κ]
    {m : List (κ × α)} (hnd : (m.map Prod.fst).Nodup)
    {k : κ} {v : α} (h : (k, v) ∈ m) : lookupM m k = some v := by
  induction m with
  | nil => simp at h
  | cons p rest ih =>
      obtain ⟨k0, v0⟩ := p
      simp only [List.map_cons, List.nodup_cons] at hnd
      rcases List.mem_cons.mp h with h1 | h1
      · obtain ⟨hk, hv⟩ := Prod.mk.injEq .. ▸ h1
        simp [lookupM, hk.symm, hv]
      · have hk0 : k0 ≠ k := by
          intro hk
          subst hk
          exact hnd.1 (List.mem_map.mpr ⟨(k0, v), h1, rfl⟩)
        simp [lookupM, hk0]
        exact ih hnd.2 h1

/-! ## GraphBuilder (src/graph_builder.py)

`build_graph` iterates `itertools.combinations(channels, 2)` over the
dict's key list, computes `overlap = len(viewers1 & viewers2)` and adds an
edge with `weight=overlap` whenever `overlap >= self.overlap_threshold`.
`apply_threshold` removes in place every edge whose weight is below the
new threshold.  A graph is modelled as its edge list (node set = the
key list of the input mapping; nodes are kept even when isolated). -/

/-- `itertools.combinations(l, 2)`: all ordered pairs `(l[i], l[j])` with `i < j`. -/
def pairsOf {α : Type} : List α → List (α × α)
  | [] => []
  | x :: xs => xs.map (fun y => (x, y)) ++ pairsOf xs

/-- The viewer set a channel maps to (the empty set for unknown channels). -/
def viewersOfCV (cv : List (String × Finset String)) (c : String) : Finset String :=
  (lookupM cv c).getD ∅

/-- `overlap = len(viewers1 & viewers2)` from `build_graph`. -/
def overlapOf (cv : List (String × Finset String)) (a b : String) : Nat :=
  (viewersOfCV cv a ∩ viewersOfCV cv b).card

/-- The edge-creating loop of `build_graph`, over an explicit pair list. -/
def build_edges (cv : List (String × Finset String)) (t : Nat) :
    List (String × String) → List (String × String × Nat)
  | [] => []
  | p :: ps =>
      if t ≤ overlapOf cv p.1 p.2 then
        (p.1, p.2, overlapOf cv p.1 p.2) :: build_edges cv t ps
      else build_edges cv t ps

/-- `GraphBuilder.build_graph`: edge list produced from the viewer-set
mapping at the given overlap threshold. -/
def build_graph (cv : List (String × Finset String)) (t : Nat) :
    List (String × String × Nat) :=
  build_edges cv t (pairsOf (cv.map Prod.fst))

/-- `GraphBuilder.apply_threshold`: drop the edges whose weight is below
the new threshold; never adds an edge. -/
def apply_threshold (g : List (String × String × Nat)) (t : Nat) :
    List (String × String × Nat) :=
  g.filter (fun e => decide (t ≤ e.2.2))

/-- An undirected edge of weight `w` between `a` and `b` (the builder
stores each unordered pair once, in key order). -/
def hasEdge (g : List (String × String × Nat)) (a b : String) (w : Nat) : Prop :=
  (a, b, w) ∈ g ∨ (b, a, w) ∈ g

instance (g : List (String × String × Nat)) (a b : String) (w : Nat) :
    Decidable (hasEdge g a b w) := by
  unfold hasEdge
  infer_instance

theorem mem_pairsOf_cons {α : Type} {x : α} {xs : List α} {a b : α} :
    (a, b) ∈ pairsOf (x :: xs) ↔ (a = x ∧ b ∈ xs) ∨ (a, b) ∈ pairsOf xs := by
  simp only [pairsOf, List.mem_append, List.mem_map, Prod.mk.injEq]
  constructor
  · rintro (⟨y, hy, hx, hb⟩ | h)
    · subst hb
      exact Or.inl ⟨hx.symm, hy⟩
    · exact Or.inr h
  · rintro (⟨ha, hb⟩ | h)
    · exact Or.inl ⟨b, hb, ha.symm, rfl⟩
    · exact Or.inr h

theorem mem_pairsOf_mem {α : Type} {l : List α} {a b : α}
    (h : (a, b) ∈ pairsOf l) : a ∈ l ∧ b ∈ l := by
  induction l with
  | nil => simp [pairsOf] at h
  | cons x xs ih =>
      rcases mem_pairsOf_cons.mp h with ⟨ha, hb⟩ | h2
      · subst ha
        exact ⟨List.mem_cons_self _ _, List.mem_cons_of_mem _ hb⟩
      · obtain ⟨ha, hb⟩ := ih h2
        exact ⟨List.mem_cons_of_mem _ ha, List.mem_cons_of_mem _ hb⟩

theorem pairsOf_total {α : Type} {l : List α} {a b : α}
    (ha : a ∈ l) (hb : b ∈ l) (hab : a ≠ b) :
    (a, b) ∈ pairsOf l ∨ (b, a) ∈ pairsOf l := by
  induction l with
  | nil => simp at ha
  | cons x xs ih =>
      by_cases hax : a = x
      · subst hax
        have hbx : b ∈ xs := by
          rcases List.mem_cons.mp hb with h | h
          · exact absurd h.symm hab
          · exact h
        exact Or.inl (mem_pairsOf_cons.mpr (Or.inl ⟨rfl, hbx⟩))
      · by_cases hbx : b = x
        · subst hbx
          have hax2 : a ∈ xs := by
            rcases List.mem_cons.mp ha with h | h
            · exact absurd h hax
            · exact h
          exact Or.inr (mem_pairsOf_cons.mpr (Or.inl ⟨rfl, hax2⟩))
        · have ha2 : a ∈ xs := by
            rcases List.mem_cons.mp ha with h | h
            · exact absurd h hax
            · exact h
          have hb2 : b ∈ xs := by
            rcases List.mem_cons.mp hb with h | h
            · exact absurd h hbx
            · exact h
          rcases ih ha2 hb2 with h | h
          · exact Or.inl (mem_pairsOf_cons.mpr (Or.inr h))
          · exact Or.inr (mem_pairsOf_cons.mpr (Or.inr h))

theorem pairsOf_irrefl {α : Type} {l : List α} (hnd : l.Nodup) (a : α) :
    (a, a) ∉ pairsOf l := by
  induction l with
  | nil => simp [pairsOf]
  | cons x xs ih =>
      simp only [List.nodup_cons] at hnd
      intro h
      rcases mem_pairsOf_cons.mp h with ⟨ha, hmem⟩ | h2
      · subst ha
        exact hnd.1 hmem
      · exact ih hnd.2 h2

theorem mem_build_edges {cv : List (String × Finset String)} {t : Nat}
    {ps : List (String × String)} {a b : String} {w : Nat} :
    (a, b, w) ∈ build_edges cv t ps ↔
      ((a, b) ∈ ps ∧ t ≤ overlapOf cv a b ∧ w = overlapOf cv a b) := by
  induction ps with
  | nil => simp [build_edges]
  | cons p ps ih =>
      obtain ⟨p1, p2⟩ := p
      by_cases h : t ≤ overlapOf cv p1 p2
      · rw [build_edges, if_pos h]
        simp only [List.mem_cons, ih, Prod.mk.injEq]
        constructor
        · rintro (⟨ha, hb, hw⟩ | ⟨hm, hle, hw⟩)
          · subst ha; subst hb; subst hw
            exact ⟨Or.inl ⟨rfl, rfl⟩, h, rfl⟩
          · exact ⟨Or.inr hm, hle, hw⟩
        · rintro ⟨⟨ha, hb⟩ | hm, hle, hw⟩
          · subst ha; subst hb
            exact Or.inl ⟨rfl, rfl, hw⟩
          · exact Or.inr ⟨hm, hle, hw⟩
      · rw [build_edges, if_neg h]
        simp only [ih, List.mem_cons, Prod.mk.injEq]
        constructor
        · rintro ⟨hm, hle, hw⟩
          exact ⟨Or.inr hm, hle, hw⟩
        · rintro ⟨⟨ha, hb⟩ | hm, hle, hw⟩
          · subst ha; subst hb
            exact absurd hle h
          · exact ⟨hm, hle, hw⟩

theorem overlapOf_comm (cv : List (String × Finset String)) (a b : String) :
    overlapOf cv a b = overlapOf cv b a := by
  unfold overlapOf
  rw [Finset.inter_comm]

theorem mem_build_graph {cv : List (String × Finset String)} {t : Nat}
    {a b : String} {w : Nat} :
    (a, b, w) ∈ build_graph cv t ↔
      ((a, b) ∈ pairsOf (cv.map Prod.fst) ∧ t ≤ overlapOf cv a b ∧
        w = overlapOf cv a b) :=
  mem_build_edges

/-- The example viewer-set mapping of the spec scenario: five channels
A–E with the given chatter sets. -/
def cvEx : List (String × Finset String) :=
  [("A", {"alice", "bob", "carol", "dave", "eve"}),
   ("B", {"alice", "bob", "carol", "frank", "grace"}),
   ("C", {"dave", "hank", "iris", "jose"}),
   ("D", {"alice", "eve", "frank", "grace", "kate", "leo"}),
   ("E", {"zara", "yolanda"})]

/-- C1: for every viewer-set mapping (with distinct channel keys, as in a
Python dict) and every threshold `t`, `build_graph` never creates a
self-loop, and for distinct channels `a`, `b` of the mapping there is an
edge of weight `w` between them iff `|V(a) ∩ V(b)| ≥ t` and
`w = |V(a) ∩ V(b)|`. -/
theorem build_graph_edge_iff (cv : List (String × Finset String)) (t : Nat)
    (hnd : (cv.map Prod.fst).Nodup) :
    (∀ a w, ¬ hasEdge (build_graph cv t) a a w) ∧
    (∀ a b w, a ∈ cv.map Prod.fst → b ∈ cv.map Prod.fst → a ≠ b →
      (hasEdge (build_graph cv t) a b w ↔
        (t ≤ overlapOf cv a b ∧ w = overlapOf cv a b))) := by
  constructor
  · intro a w h
    have hm : (a, a, w) ∈ build_graph cv t := by
      rcases h with h | h <;> exact h
    exact pairsOf_irrefl hnd a (mem_build_graph.mp hm).1
  · intro a b w ha hb hab
    constructor
    · rintro (h | h)
      · exact (mem_build_graph.mp h).2
      · have h2 := (mem_build_graph.mp h).2
        rw [overlapOf_comm cv b a] at h2
        exact h2
    · rintro ⟨hle, hw⟩
      rcases pairsOf_total ha hb hab with h | h
      · exact Or.inl (mem_build_graph.mpr ⟨h, hle, hw⟩)
      · refine Or.inr (mem_build_graph.mpr ⟨h, ?_, ?_⟩) <;>
          rw [overlapOf_comm cv b a] <;> assumption

theorem build_graph_edge_iff_witness :
    (¬ hasEdge (build_graph cvEx 1) "A" "A" 3) ∧
    (hasEdge (build_graph cvEx 1) "A" "B" 3 ↔
      (1 ≤ overlapOf cvEx "A" "B" ∧ 3 = overlapOf cvEx "A" "B")) := by
  have h := build_graph_edge_iff cvEx 1 (by decide)
  exact ⟨h.1 "A" 3, h.2 "A" "B" 3 (by decide) (by decide) (by decide)⟩

/-- C3 counterexample: on the spec's five-channel scenario at threshold 1
the edge between B and D has weight 3 (B and D share alice, frank and
grace), not weight 2 as the claim states. -/
theorem build_graph_scenario_cex :
    hasEdge (build_graph cvEx 1) "B" "D" 3 ∧
    ¬ hasEdge (build_graph cvEx 1) "B" "D" 2 := by
  decide

/-- C3 (amended): on the five-channel scenario at threshold 1 the produced
edges are exactly A–B weight 3, A–C weight 1, A–D weight 2 and B–D
weight 3; there is no B–C edge and E is isolated. -/
theorem build_graph_scenario :
    build_graph cvEx 1 =
      [("A", "B", 3), ("A", "C", 1), ("A", "D", 2), ("B", "D", 3)] ∧
    (∀ e ∈ build_graph cvEx 1,
      ¬ ((e.1 = "B" ∧ e.2.1 = "C") ∨ (e.1 = "C" ∧ e.2.1 = "B"))) ∧
    (∀ e ∈ build_graph cvEx 1, e.1 ≠ "E" ∧ e.2.1 ≠ "E") := by
  refine ⟨by decide, by decide, by decide⟩

/-- C4: `apply_threshold` keeps exactly the edges whose weight reaches the
new threshold and never adds an edge, and for thresholds `t1 < t2` the
graph built at `t2` is the threshold-filtered graph built at `t1`; hence
its edge set is a subset of the edge set at `t1`. -/
theorem apply_threshold_monotone (cv : List (String × Finset String))
    (t1 t2 : Nat) (h12 : t1 < t2) :
    (∀ (g : List (String × String × Nat)) (e : String × String × Nat),
      e ∈ apply_threshold g t2 ↔ (e ∈ g ∧ t2 ≤ e.2.2)) ∧
    apply_threshold (build_graph cv t1) t2 = build_graph cv t2 ∧
    (∀ e, e ∈ build_graph cv t2 → e ∈ build_graph cv t1) := by
  have hle : t1 ≤ t2 := Nat.le_of_lt h12
  have hmem : ∀ (g : List (String × String × Nat)) (e : String × String × Nat),
      e ∈ apply_threshold g t2 ↔ (e ∈ g ∧ t2 ≤ e.2.2) := by
    intro g e
    simp [apply_threshold, List.mem_filter]
  have hfil : ∀ ps : List (String × String),
      apply_threshold (build_edges cv t1 ps) t2 = build_edges cv t2 ps := by
    intro ps
    induction ps with
    | nil => simp [build_edges, apply_threshold]
    | cons p ps ih =>
        by_cases h1 : t1 ≤ overlapOf cv p.1 p.2
        · rw [build_edges, if_pos h1]
          by_cases h2 : t2 ≤ overlapOf cv p.1 p.2
          · rw [build_edges, if_pos h2]
            simp only [apply_threshold, List.filter] at ih ⊢
            rw [decide_eq_true h2]
            simpa using ih
          · rw [build_edges, if_neg h2]
            simp only [apply_threshold, List.filter] at ih ⊢
            rw [decide_eq_false h2]
            simpa using ih
        · have h2 : ¬ t2 ≤ overlapOf cv p.1 p.2 := fun h =>
            h1 (Nat.le_trans hle h)
          rw [build_edges, if_neg h1, build_edges, if_neg h2]
          exact ih
  refine ⟨hmem, hfil _, ?_⟩
  intro e he
  rw [build_graph, ← hfil] at he
  exact ((hmem _ e).mp he).1

theorem apply_threshold_monotone_witness :
    (("A", "B", 3) ∈ apply_threshold (build_graph cvEx 1) 2 ↔
      (("A", "B", 3) ∈ build_graph cvEx 1 ∧ 2 ≤ 3)) ∧
    apply_threshold (build_graph cvEx 1) 2 = build_graph cvEx 2 ∧
    (("A", "B", 3) ∈ build_graph cvEx 2 → ("A", "B", 3) ∈ build_graph cvEx 1) := by
  have h := apply_threshold_monotone cvEx 1 2 (by decide)
  exact ⟨h.1 (build_graph cvEx 1) ("A", "B", 3), h.2.1, h.2.2 ("A", "B", 3)⟩

/-! ## DataAggregator (src/data_aggregator.py)

Snapshot records and per-channel metadata are Python dicts accessed with
`get`; we model each as a structure of `Option` fields, one per key the
source ever reads or writes.  `_ingest_snapshot` stores the keys
`viewer_count`, `game_name`, `title`, `started_at`, `timestamp`;
`load_csv_snapshots` stores `viewers`, `game`, `title`, `timestamp` and
only when the channel has no metadata yet. -/

/-- Python `s.lower()`. -/
def strLower (s : String) : String := String.mk (s.data.map Char.toLower)

/-- Python `a or b` for an optional string `a`: the string when present
and non-empty (truthy), otherwise `b`. -/
def orStr (a : Option String) (b : String) : String :=
  match a with
  | some s => if s = "" then b else s
  | none => b

/-- A raw snapshot record (`dict` fields read by `_ingest_snapshot`). -/
structure Snapshot where
  channel : Option String := none
  channel_login : Option String := none
  viewer_count : Option Int := none
  viewers : Option Int := none
  game_name : Option String := none
  game : Option String := none
  title : Option String := none
  started_at : Option String := none
  uptime : Option String := none
  timestamp : Option String := none
  language : Option String := none
  chatters : List String := []
deriving DecidableEq

/-- A channel-metadata dict: one optional field per key the repository
ever stores or reads on channel metadata. -/
structure Meta where
  viewers : Option Int := none
  game : Option String := none
  language : Option String := none
  viewer_count : Option Int := none
  game_name : Option String := none
  title : Option String := none
  started_at : Option String := none
  timestamp : Option String := none
deriving DecidableEq

/-- One row of a CSV snapshot file (`csv.DictReader` row fields). -/
structure CsvRow where
  channel : Option String := none
  chatter : Option String := none
  viewers : Option Int := none
  game : Option String := none
  title : Option String := none
  timestamp : Option String := none
deriving DecidableEq

/-- `channel = (snapshot.get("channel") or snapshot.get("channel_login") or "").lower()`. -/
def channelOfSnapshot (r : Snapshot) : String :=
  strLower (orStr r.channel (orStr r.channel_login ""))

/-- The metadata dict written by `_ingest_snapshot` (lines 70–76): keys
`viewer_count`, `game_name`, `title`, `started_at`, `timestamp` only. -/
def metaOfRecord (r : Snapshot) : Meta :=
  { viewer_count := some (r.viewer_count.getD (r.viewers.getD 0)),
    game_name := some (r.game_name.getD (r.game.getD "Unknown")),
    title := some (r.title.getD ""),
    started_at := some (r.started_at.getD (r.uptime.getD "")),
    timestamp := some (r.timestamp.getD "") }

/-- The metadata dict written by `load_csv_snapshots` (lines 186–191):
keys `viewers`, `game`, `title`, `timestamp` only. -/
def csvMetaOfRow (row : CsvRow) : Meta :=
  { viewers := some (row.viewers.getD 0),
    game := some (row.game.getD "Unknown"),
    title := some (row.title.getD ""),
    timestamp := some (row.timestamp.getD "") }

/-- The aggregator's accumulators (`channel_viewers` is a
`defaultdict(set)`, `channel_metadata` a plain dict). -/
structure AggState where
  channel_viewers : List (String × Finset String) := []
  channel_metadata : List (String × Meta) := []
deriving DecidableEq

def emptyAgg : AggState := {}

/-- `self.channel_viewers[channel]` on a `defaultdict(set)` followed by a
mutation `f` of the set. -/
def updSet (m : List (String × Finset String)) (k : String)
    (f : Finset String → Finset String) : List (String × Finset String) :=
  setIn m k (f ((lookupM m k).getD ∅))

/-- `DataAggregator._ingest_snapshot`: skip when the normalized channel is
empty; otherwise union the chatters into the channel's viewer set and
overwrite the channel's metadata with the normalized record. -/
def ingest_snapshot (s : AggState) (r : Snapshot) : Bool × AggState :=
  if channelOfSnapshot r = "" then (false, s)
  else
    (true,
     { channel_viewers :=
         updSet s.channel_viewers (channelOfSnapshot r) (· ∪ r.chatters.toFinset),
       channel_metadata :=
         setIn s.channel_metadata (channelOfSnapshot r) (metaOfRecord r) })

/-- Ingest a list of snapshot records in order (the loop bodies of
`load_json_snapshots` / `load_vod_snapshots`). -/
def ingestAll (s : AggState) (recs : List Snapshot) : AggState :=
  recs.foldl (fun s r => (ingest_snapshot s r).2) s

def rowChannel (row : CsvRow) : String := strLower (row.channel.getD "")

def rowChatter (row : CsvRow) : String := strLower (row.chatter.getD "")

/-- The per-row body of `load_csv_snapshots`: skip rows with an empty
channel or chatter; add the chatter to the channel's viewer set; store
metadata only if the channel has none yet. -/
def csvStep (s : AggState) (row : CsvRow) : AggState :=
  if rowChannel row = "" ∨ rowChatter row = "" then s
  else
    { channel_viewers := updSet s.channel_viewers (rowChannel row) (insert (rowChatter row)),
      channel_metadata :=
        match lookupM s.channel_metadata (rowChannel row) with
        | some _ => s.channel_metadata
        | none => setIn s.channel_metadata (rowChannel row) (csvMetaOfRow row) }

/-- Whether `needle` starts `hay` (character lists). -/
def listLeads : List Char → List Char → Bool
  | [], _ => true
  | _ :: _, [] => false
  | a :: as, b :: bs => a == b && listLeads as bs

/-- Whether `needle` occurs contiguously inside `hay`: Python
`needle in hay` on strings (character lists). -/
def listInside (needle : List Char) : List Char → Bool
  | [] => needle.isEmpty
  | b :: bs => listLeads needle (b :: bs) || listInside needle bs

/-- Python `needle in hay` for strings. -/
def strInside (needle hay : String) : Bool := listInside needle.data hay.data

/-- `DataAggregator.filter_channels_by_metadata`: channels with no
metadata are included; otherwise the metadata's `viewers` value (default
0) must reach `min_viewer_count` and no excluded string may occur
case-insensitively inside the metadata's `game` value (default
"Unknown"). -/
def filter_channels_by_metadata (s : AggState) (min_viewer_count : Int)
    (exclude_games : List String) : List (String × Finset String) :=
  s.channel_viewers.filterMap (fun p =>
    match lookupM s.channel_metadata p.1 with
    | none => some p
    | some meta =>
        if meta.viewers.getD 0 < min_viewer_count then none
        else if exclude_games.any
            (fun excl => strInside (strLower excl) (strLower (meta.game.getD "Unknown"))) then
          none
        else some p)

/-- The last record of a list whose normalized channel is `c`. -/
def lastMatching (c : String) : List Snapshot → Option Snapshot
  | [] => none
  | r :: rs =>
      match lastMatching c rs with
      | some r0 => some r0
      | none => if channelOfSnapshot r = c then some r else none

def rowG1 : CsvRow :=
  { channel := some "c", chatter := some "u1", viewers := some 5,
    game := some "g1", title := some "t1", timestamp := some "s1" }

def rowG2 : CsvRow :=
  { channel := some "c", chatter := some "u2", viewers := some 7,
    game := some "g2", title := some "t2", timestamp := some "s2" }

/-- C5 counterexample: ingesting two CSV rows for the same channel leaves
the metadata of the FIRST row in place (`load_csv_snapshots` stores
metadata only when the channel has none yet), so the metadata is not the
most recently ingested record's fields. -/
theorem csv_metadata_first_wins_cex :
    lookupM ((csvStep (csvStep emptyAgg rowG1) rowG2).channel_metadata) "c" =
      some (csvMetaOfRow rowG1) ∧
    csvMetaOfRow rowG1 ≠ csvMetaOfRow rowG2 := by
  decide

/-- C5 (amended): last-snapshot-wins holds on the `_ingest_snapshot` path
(JSON / VOD loading): after ingesting a record list, a channel's metadata
is the normalization of the last record mentioning it.  The CSV path
instead never overwrites metadata that is already present (first-wins). -/
theorem metadata_ingestion_order (c : String) (hc : c ≠ "") :
    (∀ (s : AggState) (recs : List Snapshot),
      lookupM ((ingestAll s recs).channel_metadata) c =
        (match lastMatching c recs with
         | some r => some (metaOfRecord r)
         | none => lookupM s.channel_metadata c)) ∧
    (∀ (s : AggState) (row : CsvRow) (m : Meta),
      lookupM s.channel_metadata (rowChannel row) = some m →
      lookupM ((csvStep s row).channel_metadata) (rowChannel row) = some m) := by
  constructor
  · intro s recs
    induction recs generalizing s with
    | nil => simp [ingestAll, lastMatching]
    | cons r rs ih =>
        have hstep : ingestAll s (r :: rs) = ingestAll (ingest_snapshot s r).2 rs := rfl
        rw [hstep, ih]
        rcases hm : lastMatching c rs with _ | r0
        · simp only [lastMatching, hm]
          by_cases hch : channelOfSnapshot r = c
          · rw [if_pos hch]
            have hne : channelOfSnapshot r ≠ "" := by
              rw [hch]; exact hc
            simp only [ingest_snapshot, if_neg hne]
            rw [hch, lookupM_setIn_self]
          · rw [if_neg hch]
            by_cases hemp : channelOfSnapshot r = ""
            · simp [ingest_snapshot, hemp]
            · simp only [ingest_snapshot, if_neg hemp]
              exact lookupM_setIn_other _ _ _ _ (fun h => hch h.symm)
        · simp only [lastMatching, hm]
  · intro s row m hm
    by_cases hskip : rowChannel row = "" ∨ rowChatter row = ""
    · simp only [csvStep, if_pos hskip]
      exact hm
    · simp only [csvStep, if_neg hskip, hm]

def snapA : Snapshot :=
  { channel := some "c", viewer_count := some 10, game_name := some "gA",
    chatters := ["u1"] }

def snapB : Snapshot :=
  { channel := some "c", viewer_count := some 20, game_name := some "gB",
    chatters := ["u2"] }

theorem metadata_ingestion_order_witness :
    (lookupM ((ingestAll emptyAgg [snapA, snapB]).channel_metadata) "c" =
      (match lastMatching "c" [snapA, snapB] with
       | some r => some (metaOfRecord r)
       | none => lookupM emptyAgg.channel_metadata "c")) ∧
    lookupM ((csvStep (csvStep emptyAgg rowG1) rowG2).channel_metadata)
        (rowChannel rowG2) = some (csvMetaOfRow rowG1) := by
  have h := metadata_ingestion_order "c" (by decide)
  refine ⟨h.1 emptyAgg [snapA, snapB], ?_⟩
  exact h.2 (csvStep emptyAgg rowG1) rowG2 (csvMetaOfRow rowG1) (by decide)

/-! ### Shallow-copy semantics of the state getters (C6)

`get_channel_viewers` returns `dict(self.channel_viewers)`: a NEW
top-level dict whose values are the aggregator's OWN set objects.  To
express aliasing we model set objects as entries of an explicit heap and
the per-channel mapping as channel → object id; `dict(...)` copies the
mapping but not the heap objects. -/

structure HeapAgg where
  heap : List (Nat × Finset String)
  channel_viewers : List (String × Nat)
deriving DecidableEq

/-- Dereference a set object id in the heap. -/
def derefSet (heap : List (Nat × Finset String)) (sid : Nat) : Finset String :=
  (lookupM heap sid).getD ∅

/-- `DataAggregator.get_channel_viewers`: `dict(self.channel_viewers)` —
a fresh top-level mapping whose values are the same set objects. -/
def get_channel_viewers_copy (s : HeapAgg) : List (String × Nat) :=
  s.channel_viewers

/-- A caller mutating one of the returned set objects
(`returned[c].add(u)`): the heap object changes, the mapping does not. -/
def mutateSet (s : HeapAgg) (sid : Nat) (u : String) : HeapAgg :=
  { s with heap := setIn s.heap sid (insert u (derefSet s.heap sid)) }

/-- The viewer set the aggregator currently associates with a channel
(what a subsequent `get_channel_viewers()[c]` dereferences to). -/
def observeViewers (s : HeapAgg) (c : String) : Option (Finset String) :=
  (lookupM s.channel_viewers c).map (derefSet s.heap)

def heapEx : HeapAgg := { heap := [(0, {"x"})], channel_viewers := [("a", 0)] }

/-- C6 counterexample: adding a user to a viewer set obtained from
`get_channel_viewers()` changes the aggregator's state — the copy is
shallow, so a subsequent call no longer returns the pre-mutation set. -/
theorem get_channel_viewers_shallow_cex :
    lookupM (get_channel_viewers_copy heapEx) "a" = some 0 ∧
    observeViewers heapEx "a" = some {"x"} ∧
    observeViewers (mutateSet heapEx 0 "y") "a" = some ({"y", "x"} : Finset String) ∧
    observeViewers (mutateSet heapEx 0 "y") "a" ≠ observeViewers heapEx "a" := by
  decide

/-- C6 (amended): `get_channel_viewers` returns a new top-level mapping
(the mapping itself survives a mutation unchanged), but the contained
viewer sets are the aggregator's own objects: mutating one through the
returned mapping inserts the user into the aggregator's set. -/
theorem get_channel_viewers_alias (s : HeapAgg) (c : String) (sid : Nat)
    (u : String) (h : lookupM (get_channel_viewers_copy s) c = some sid) :
    lookupM (get_channel_viewers_copy (mutateSet s sid u)) c = some sid ∧
    observeViewers (mutateSet s sid u) c = some (insert u (derefSet s.heap sid)) := by
  refine ⟨h, ?_⟩
  have h' : lookupM s.channel_viewers c = some sid := h
  simp [observeViewers, mutateSet, derefSet, h', lookupM_setIn_self]

theorem get_channel_viewers_alias_witness :
    lookupM (get_channel_viewers_copy (mutateSet heapEx 0 "y")) "a" = some 0 ∧
    observeViewers (mutateSet heapEx 0 "y") "a" =
      some (insert "y" (derefSet heapEx.heap 0)) :=
  get_channel_viewers_alias heapEx "a" 0 "y" (by decide)

def snapC7 : Snapshot :=
  { channel := some "a", viewer_count := some 100, game_name := some "chess",
    chatters := ["u"] }

def aggC7 : AggState := (ingest_snapshot emptyAgg snapC7).2

/-- C7 counterexample: a channel whose metadata was stored by
`_ingest_snapshot` with recorded viewer count 100 and category "chess" is
EXCLUDED by `filter_channels_by_metadata(min_viewer_count=1, [])`, because
the filter reads the keys `viewers`/`game`, which `_ingest_snapshot` never
writes (it writes `viewer_count`/`game_name`), so the count defaults to 0. -/
theorem filter_by_metadata_key_mismatch_cex :
    lookupM aggC7.channel_metadata "a" = some (metaOfRecord snapC7) ∧
    (metaOfRecord snapC7).viewer_count = some 100 ∧
    (1 : Int) ≤ 100 ∧
    filter_channels_by_metadata aggC7 1 [] = [] := by
  decide

/-- C7 (amended): `filter_channels_by_metadata` includes a channel that
has metadata iff the metadata's `viewers` value (0 when the key is
absent, as it is for `_ingest_snapshot`-stored metadata) is ≥
`min_viewer_count` and no excluded string occurs case-insensitively
inside the metadata's `game` value ("Unknown" when absent); channels with
no metadata are always included (fail-open). -/
theorem filter_channels_by_metadata_spec (s : AggState) (minVC : Int)
    (excl : List String) (p : String × Finset String) :
    p ∈ filter_channels_by_metadata s minVC excl ↔
      (p ∈ s.channel_viewers ∧
        (lookupM s.channel_metadata p.1 = none ∨
          ∃ m, lookupM s.channel_metadata p.1 = some m ∧
            minVC ≤ m.viewers.getD 0 ∧
            ¬ (excl.any (fun e =>
                strInside (strLower e) (strLower (m.game.getD "Unknown"))) = true))) := by
  unfold filter_channels_by_metadata
  rw [List.mem_filterMap]
  constructor
  · rintro ⟨q, hq, hf⟩
    rcases hm : lookupM s.channel_metadata q.1 with _ | m
    · rw [hm] at hf
      simp only [Option.some.injEq] at hf
      subst hf
      exact ⟨hq, Or.inl hm⟩
    · rw [hm] at hf
      simp only at hf
      by_cases h1 : m.viewers.getD 0 < minVC
      · rw [if_pos h1] at hf
        exact absurd hf (by simp)
      · rw [if_neg h1] at hf
        by_cases h2 : excl.any (fun e =>
            strInside (strLower e) (strLower (m.game.getD "Unknown"))) = true
        · rw [if_pos h2] at hf
          exact absurd hf (by simp)
        · rw [if_neg h2] at hf
          simp only [Option.some.injEq] at hf
          subst hf
          exact ⟨hq, Or.inr ⟨m, hm, not_lt.mp h1, h2⟩⟩
  · rintro ⟨hp, hnone | ⟨m, hm, h1, h2⟩⟩
    · exact ⟨p, hp, by rw [hnone]⟩
    · refine ⟨p, hp, ?_⟩
      rw [hm]
      simp only
      rw [if_neg (not_lt.mpr h1), if_neg h2]

/-! ## CommunityDetector (community_detector.py)

A graph is its node list (unique, as networkx nodes are) and edge list.
`detect_communities` delegates the partition itself to the external
python-louvain library and then groups `partition.items()` into the
`communities` dict; the greedy fallback computes its partition in src. -/

structure DGraph where
  nodes : List String
  edges : List (String × String)

/-- Insert a member into its community's set, in the community dict
(`if comm_id not in self.communities: ... ; self.communities[comm_id].add(node)`). -/
def addToComm {κ : Type} [DecidableEq κ] :
    List (κ × List String) → κ → String → List (κ × List String)
  | [], cid, n => [(cid, [n])]
  | (c, ms) :: rest, cid, n =>
      if c = cid then (c, n :: ms) :: rest else (c, ms) :: addToComm rest cid n

def buildCommunitiesAux {κ : Type} [DecidableEq κ] :
    List (String × κ) → List (κ × List String) → List (κ × List String)
  | [], acc => acc
  | (n, cid) :: rest, acc => buildCommunitiesAux rest (addToComm acc cid n)

/-- The loop `for node, comm_id in self.partition.items(): ...` that
groups the partition into the community dict. -/
def buildCommunities {κ : Type} [DecidableEq κ]
    (p : List (String × κ)) : List (κ × List String) :=
  buildCommunitiesAux p []

/-- Membership of a node in the community with the given id. -/
def memComm {κ : Type} [DecidableEq κ]
    (comms : List (κ × List String)) (cid : κ) (n : String) : Prop :=
  ∃ ms, (cid, ms) ∈ comms ∧ n ∈ ms

theorem memComm_addToComm {κ : Type} [DecidableEq κ]
    (acc : List (κ × List String)) (cid : κ) (n : String) (c : κ) (m : String) :
    memComm (addToComm acc cid n) c m ↔ ((c = cid ∧ m = n) ∨ memComm acc c m) := by
  induction acc with
  | nil =>
      simp only [addToComm, memComm, List.mem_singleton, List.not_mem_nil,
        false_and, exists_false, or_false]
      constructor
      · rintro ⟨ms, hpair, hm⟩
        obtain ⟨hc, hms⟩ := Prod.mk.injEq .. ▸ hpair
        subst hms
        exact ⟨hc, List.mem_singleton.mp hm⟩
      · rintro ⟨hc, hm⟩
        subst hc
        exact ⟨[n], rfl, by rw [hm]; exact List.mem_singleton.mpr rfl⟩
  | cons q rest ih =>
      obtain ⟨k, ms0⟩ := q
      by_cases hk : k = cid
      · subst hk
        rw [addToComm, if_pos rfl]
        simp only [memComm] at ih ⊢
        constructor
        · rintro ⟨ms, hmem, hm⟩
          rcases List.mem_cons.mp hmem with hpair | hmem2
          · obtain ⟨hc, hms⟩ := Prod.mk.injEq .. ▸ hpair
            subst hc; subst hms
            rcases List.mem_cons.mp hm with hmn | hmem3
            · exact Or.inl ⟨rfl, hmn⟩
            · exact Or.inr ⟨ms0, List.mem_cons_self _ _, hmem3⟩
          · exact Or.inr ⟨ms, List.mem_cons_of_mem _ hmem2, hm⟩
        · rintro (⟨hc, hm⟩ | ⟨ms, hmem, hm⟩)
          · subst hc
            exact ⟨n :: ms0, List.mem_cons_self _ _,
              by rw [hm]; exact List.mem_cons_self _ _⟩
          · rcases List.mem_cons.mp hmem with hpair | hmem2
            · obtain ⟨hc, hms⟩ := Prod.mk.injEq .. ▸ hpair
              subst hc
              exact ⟨n :: ms0, List.mem_cons_self _ _,
                List.mem_cons_of_mem _ (hms ▸ hm)⟩
            · exact ⟨ms, List.mem_cons_of_mem _ hmem2, hm⟩
      · rw [addToComm, if_neg hk]
        simp only [memComm] at ih ⊢
        constructor
        · rintro ⟨ms, hmem, hm⟩
          rcases List.mem_cons.mp hmem with hpair | hmem2
          · exact Or.inr ⟨ms, List.mem_cons.mpr (Or.inl hpair), hm⟩
          · rcases ih.mp ⟨ms, hmem2, hm⟩ with h | ⟨ms2, hmem3, hm2⟩
            · exact Or.inl h
            · exact Or.inr ⟨ms2, List.mem_cons_of_mem _ hmem3, hm2⟩
        · rintro (⟨hc, hm⟩ | ⟨ms, hmem, hm⟩)
          · rcases ih.mpr (Or.inl ⟨hc, hm⟩) with ⟨ms2, hmem2, hm2⟩
            exact ⟨ms2, List.mem_cons_of_mem _ hmem2, hm2⟩
          · rcases List.mem_cons.mp hmem with hpair | hmem2
            · exact ⟨ms, List.mem_cons.mpr (Or.inl hpair), hm⟩
            · rcases ih.mpr (Or.inr ⟨ms, hmem2, hm⟩) with ⟨ms2, hmem3, hm2⟩
              exact ⟨ms2, List.mem_cons_of_mem _ hmem3, hm2⟩

theorem memComm_buildCommunitiesAux {κ : Type} [DecidableEq κ]
    (p : List (String × κ)) (acc : List (κ × List String)) (c : κ) (m : String) :
    memComm (buildCommunitiesAux p acc) c m ↔ ((m, c) ∈ p ∨ memComm acc c m) := by
  induction p generalizing acc with
  | nil => simp [buildCommunitiesAux]
  | cons q rest ih =>
      obtain ⟨n, cid⟩ := q
      rw [buildCommunitiesAux, ih, memComm_addToComm]
      simp only [List.mem_cons, Prod.mk.injEq]
      constructor
      · rintro (h | (⟨hc, hm⟩ | h))
        · exact Or.inl (Or.inr h)
        · exact Or.inl (Or.inl ⟨hm, hc⟩)
        · exact Or.inr h
      · rintro ((⟨hm, hc⟩ | h) | h)
        · exact Or.inr (Or.inl ⟨hc, hm⟩)
        · exact Or.inl h
        · exact Or.inr (Or.inr h)

theorem memComm_buildCommunities {κ : Type} [DecidableEq κ]
    (p : List (String × κ)) (c : κ) (m : String) :
    memComm (buildCommunities p) c m ↔ (m, c) ∈ p := by
  rw [buildCommunities, memComm_buildCommunitiesAux]
  simp [memComm]

theorem keys_nodup_value_unique {κ : Type} [DecidableEq κ]
    {p : List (String × κ)} (hnd : (p.map Prod.fst).Nodup)
    {n : String} {c c' : κ} (h : (n, c) ∈ p) (h' : (n, c') ∈ p) : c = c' := by
  have e1 := lookupM_eq_of_keys_nodup hnd h
  have e2 := lookupM_eq_of_keys_nodup hnd h'
  rw [e1] at e2
  exact Option.some.inj e2

/-- The three partition invariants of the spec for a community dict over
a node list: every node is in exactly one community, communities with
different ids are disjoint, and the union of the communities is the node
set. -/
def PartProps {κ : Type} [DecidableEq κ]
    (nodes : List String) (comms : List (κ × List String)) : Prop :=
  (∀ n ∈ nodes, ∃! cid, memComm comms cid n) ∧
  (∀ cid cid' n, memComm comms cid n → memComm comms cid' n → cid = cid') ∧
  (∀ n, (∃ cid, memComm comms cid n) ↔ n ∈ nodes)

theorem partProps_of_partition {κ : Type} [DecidableEq κ]
    (nodes : List String) (p : List (String × κ))
    (hnd : (p.map Prod.fst).Nodup)
    (hkeys : ∀ n, n ∈ p.map Prod.fst ↔ n ∈ nodes) :
    PartProps nodes (buildCommunities p) := by
  have hdis : ∀ cid cid' n, memComm (buildCommunities p) cid n →
      memComm (buildCommunities p) cid' n → cid = cid' := by
    intro cid cid' n h h'
    rw [memComm_buildCommunities] at h h'
    exact keys_nodup_value_unique hnd h h'
  have hcov : ∀ n, (∃ cid, memComm (buildCommunities p) cid n) ↔ n ∈ nodes := by
    intro n
    rw [← hkeys n]
    constructor
    · rintro ⟨cid, h⟩
      rw [memComm_buildCommunities] at h
      exact List.mem_map.mpr ⟨(n, cid), h, rfl⟩
    · intro h
      rcases List.mem_map.mp h with ⟨⟨n0, cid⟩, hmem, he⟩
      subst he
      exact ⟨cid, (memComm_buildCommunities p cid n0).mpr hmem⟩
  refine ⟨?_, hdis, hcov⟩
  intro n hn
  rcases (hcov n).mpr hn with ⟨cid, hcid⟩
  exact ⟨cid, hcid, fun c hc => hdis c cid n hc hcid⟩

/-- Modelled from the spec: the output contract of python-louvain's
`community.best_partition` (an external dependency, not part of src/) —
"every node receives exactly one integer community id", i.e. the returned
dict maps exactly the graph's nodes, each to one integer id. -/
def IsLouvainOutput (g : DGraph) (bp : List (String × Int)) : Prop :=
  (bp.map Prod.fst).Nodup ∧ ∀ n, n ∈ bp.map Prod.fst ↔ n ∈ g.nodes

/-! ### SimpleGreedyCommunityDetector (fallback, fully in src) -/

/-- `self.partition = {node: i for i, node in enumerate(graph.nodes())}`. -/
def initPartition (nodes : List String) : List (String × Nat) :=
  nodes.enum.map (fun p => (p.2, p.1))

def lookupComm (p : List (String × Nat)) (n : String) : Nat :=
  (lookupM p n).getD 0

/-- The inner `for u, v in graph.edges()` scan: the communities of the
first edge whose endpoints lie in different communities. -/
def findMergeEdge (p : List (String × Nat)) : List (String × String) → Option (Nat × Nat)
  | [] => none
  | e :: es =>
      if lookupComm p e.1 ≠ lookupComm p e.2 then
        some (lookupComm p e.1, lookupComm p e.2)
      else findMergeEdge p es

/-- Reassign every node of community `cv` to community `cu`. -/
def mergeComm (p : List (String × Nat)) (cu cv : Nat) : List (String × Nat) :=
  p.map (fun nc => (nc.1, if nc.2 = cv then cu else nc.2))

/-- The `while improved and iteration < 10` loop: each pass rescans the
edges and performs at most one merge; stop when a pass finds none or the
iteration cap runs out. -/
def greedyLoop (es : List (String × String)) : Nat → List (String × Nat) → List (String × Nat)
  | 0, p => p
  | fuel + 1, p =>
      match findMergeEdge p es with
      | none => p
      | some (cu, cv) => greedyLoop es fuel (mergeComm p cu cv)

/-- `SimpleGreedyCommunityDetector.detect_communities`: the partition it
computes (iteration cap 10). -/
def greedy_detect (g : DGraph) : List (String × Nat) :=
  greedyLoop g.edges 10 (initPartition g.nodes)

theorem greedyLoop_keys (es : List (String × String)) (fuel : Nat)
    (p : List (String × Nat)) :
    (greedyLoop es fuel p).map Prod.fst = p.map Prod.fst := by
  induction fuel generalizing p with
  | zero => rfl
  | succ f ih =>
      rw [greedyLoop]
      rcases findMergeEdge p es with _ | ⟨cu, cv⟩
      · rfl
      · simp only
        rw [ih]
        simp [mergeComm, Function.comp]

theorem initPartition_keys (nodes : List String) :
    (initPartition nodes).map Prod.fst = nodes := by
  unfold initPartition
  rw [List.map_map]
  have h : (Prod.fst ∘ fun p : Nat × String => (p.2, p.1)) = Prod.snd := rfl
  rw [h, List.enum_map_snd]

theorem greedy_detect_keys (g : DGraph) :
    (greedy_detect g).map Prod.fst = g.nodes := by
  rw [greedy_detect, greedyLoop_keys, initPartition_keys]

/-- C2: both community detectors produce a total, covering, pairwise
disjoint partition: any output of the Louvain backend (which assigns
every graph node exactly one id) and the greedy fallback's own partition,
once grouped into the community dict, place every node in exactly one
community, keep distinct communities disjoint, and cover exactly the node
set. -/
theorem detect_communities_partition (g : DGraph) (bp : List (String × Int))
    (hbp : IsLouvainOutput g bp) (hnodes : g.nodes.Nodup) :
    PartProps g.nodes (buildCommunities bp) ∧
    PartProps g.nodes (buildCommunities (greedy_detect g)) := by
  constructor
  · exact partProps_of_partition g.nodes bp hbp.1 hbp.2
  · refine partProps_of_partition g.nodes (greedy_detect g) ?_ ?_
    · rw [greedy_detect_keys]
      exact hnodes
    · rw [greedy_detect_keys]
      intro n
      exact Iff.rfl

def graphEx : DGraph :=
  { nodes := ["A", "B", "C"], edges := [("A", "B")] }

theorem detect_communities_partition_witness :
    PartProps graphEx.nodes (buildCommunities [("A", (0 : Int)), ("B", 0), ("C", 1)]) ∧
    PartProps graphEx.nodes (buildCommunities (greedy_detect graphEx)) :=
  detect_communities_partition graphEx [("A", 0), ("B", 0), ("C", 1)]
    ⟨by decide, fun n => by simp [graphEx]⟩ (by decide)

/-! ### CommunityDetector state (C10) -/

/-- The mutable fields of `CommunityDetector` (`resolution`, `partition`,
`communities`, `modularity`; the two float fields are modelled as
rationals, their values play no computational role here). -/
structure CDState where
  resolution : Rat
  partition : List (String × Int)
  communities : List (Int × List String)
  modularity : Rat
deriving DecidableEq

/-- `CommunityDetector.detect_communities` (with python-louvain
available): on a graph with zero nodes it returns `{}` WITHOUT touching
the stored state; otherwise it stores the library's partition `bp`,
rebuilds the community dict from it, stores the library's modularity `q`,
and returns the partition. -/
def detect_communities (s : CDState) (g : DGraph)
    (bp : List (String × Int)) (q : Rat) : List (String × Int) × CDState :=
  if g.nodes.length = 0 then ([], s)
  else
    (bp, { s with partition := bp, communities := buildCommunities bp,
                  modularity := q })

def get_partition (s : CDState) : List (String × Int) := s.partition

def get_communities (s : CDState) : List (Int × List String) := s.communities

def get_modularity (s : CDState) : Rat := s.modularity

/-- C10: calling `detect_communities` on a zero-node graph returns an
empty partition but leaves the stored partition, communities and
modularity untouched, so the getters still report the previous run's
(non-empty) results. -/
theorem detect_communities_empty_graph_frame (s : CDState) (g : DGraph)
    (bp : List (String × Int)) (q : Rat) (hg : g.nodes = [])
    (hprev : s.partition ≠ []) :
    (detect_communities s g bp q).1 = [] ∧
    get_partition (detect_communities s g bp q).2 = get_partition s ∧
    get_communities (detect_communities s g bp q).2 = get_communities s ∧
    get_modularity (detect_communities s g bp q).2 = get_modularity s ∧
    get_partition (detect_communities s g bp q).2 ≠ [] := by
  have h0 : g.nodes.length = 0 := by rw [hg]; rfl
  have hd : detect_communities s g bp q = ([], s) := by
    simp [detect_communities, h0]
  rw [hd]
  exact ⟨rfl, rfl, rfl, rfl, hprev⟩

def cdPrev : CDState :=
  { resolution := 1, partition := [("A", 0), ("B", 0)],
    communities := buildCommunities [("A", (0 : Int)), ("B", 0)], modularity := 0 }

theorem detect_communities_empty_graph_frame_witness :
    (detect_communities cdPrev ⟨[], []⟩ [] 0).1 = [] ∧
    get_partition (detect_communities cdPrev ⟨[], []⟩ [] 0).2 = get_partition cdPrev ∧
    get_communities (detect_communities cdPrev ⟨[], []⟩ [] 0).2 = get_communities cdPrev ∧
    get_modularity (detect_communities cdPrev ⟨[], []⟩ [] 0).2 = get_modularity cdPrev ∧
    get_partition (detect_communities cdPrev ⟨[], []⟩ [] 0).2 ≠ [] :=
  detect_communities_empty_graph_frame cdPrev ⟨[], []⟩ [] 0 rfl (by decide)

/-! ## ClusterTagger (src/cluster_tagger.py)

`_generate_label` collects, over the community's member channels, the
known games (`meta.get("game", "Unknown")`, kept when truthy and not
"Unknown"), the known languages, and the nonzero viewer counts, then runs
a fixed decision cascade.  `Counter(...).most_common(1)[0]` is the
element with the maximal count, ties resolved in favour of the first
occurrence. -/

def gameOfChannel (md : List (String × Meta)) (ch : String) : Option String :=
  match lookupM md ch with
  | none => none
  | some m =>
      if m.game.getD "Unknown" ≠ "" ∧ m.game.getD "Unknown" ≠ "Unknown" then
        some (m.game.getD "Unknown")
      else none

def langOfChannel (md : List (String × Meta)) (ch : String) : Option String :=
  match lookupM md ch with
  | none => none
  | some m =>
      if m.language.getD "Unknown" ≠ "" ∧ m.language.getD "Unknown" ≠ "Unknown" then
        some (m.language.getD "Unknown")
      else none

def viewerCountOfChannel (md : List (String × Meta)) (ch : String) : Option Int :=
  match lookupM md ch with
  | none => none
  | some m => if m.viewers.getD 0 ≠ 0 then some (m.viewers.getD 0) else none

def gamesOf (channels : List String) (md : List (String × Meta)) : List String :=
  channels.filterMap (gameOfChannel md)

def langsOf (channels : List String) (md : List (String × Meta)) : List String :=
  channels.filterMap (langOfChannel md)

def viewersOf (channels : List String) (md : List (String × Meta)) : List Int :=
  channels.filterMap (viewerCountOfChannel md)

/-- The scan computing `Counter(l).most_common(1)[0]`: the element of
maximal count, ties resolved in favour of the earliest occurrence. -/
def mostCommonAux (cnt : String → Nat) :
    List String → Option (String × Nat) → Option (String × Nat)
  | [], acc => acc
  | x :: xs, acc =>
      match acc with
      | none => mostCommonAux cnt xs (some (x, cnt x))
      | some (y, c) =>
          if cnt x > c then mostCommonAux cnt xs (some (x, cnt x))
          else mostCommonAux cnt xs (some (y, c))

def mostCommon (l : List String) : Option (String × Nat) :=
  mostCommonAux (fun s => l.count s) l none

/-- Distinct elements of a list in first-occurrence order (the key order
of `Counter(l)`). -/
def distinctInOrder (l : List String) : List String :=
  l.foldl (fun acc x => if x ∈ acc then acc else acc ++ [x]) []

/-- Stable insertion by descending count (an earlier element precedes
later elements of equal count). -/
def insertDesc (cnt : String → Nat) (x : String) : List String → List String
  | [] => [x]
  | y :: ys => if cnt y ≤ cnt x then x :: y :: ys else y :: insertDesc cnt x ys

/-- `Counter(l).most_common()`: distinct elements sorted by descending
count, ties in first-occurrence order. -/
def sortCountDesc (cnt : String → Nat) : List String → List String
  | [] => []
  | x :: xs => insertDesc cnt x (sortCountDesc cnt xs)

/-- Branch 1 of the cascade: a game whose share of ALL community members
reaches 60% becomes the label. -/
def branch1 (games : List String) (n : Nat) : Option String :=
  match mostCommon games with
  | some (tg, freq) => if 60 * n ≤ 100 * freq then some tg else none
  | none => none

/-- Branch 2: `languages and games` nonempty and the top language's share
reaches 40% — label `"<game> (<language>)"`. -/
def branch2 (games langs : List String) (n : Nat) : Option String :=
  match games, mostCommon langs with
  | _ :: _, some (tl, lfreq) =>
      if 40 * n ≤ 100 * lfreq then
        match mostCommon games with
        | some (tg, _) => some (tg ++ " (" ++ tl ++ ")")
        | none => none
      else none
  | _, _ => none

/-- Branch 3: top language's share reaches 50% — label
`"<language>-speaking Variety"`. -/
def branch3 (langs : List String) (n : Nat) : Option String :=
  match mostCommon langs with
  | some (tl, lfreq) =>
      if 50 * n ≤ 100 * lfreq then some (tl ++ "-speaking Variety") else none
  | none => none

/-- Branch 4: at least two distinct known games — label
`"<top1> / <top2> Mix"`. -/
def branch4 (games : List String) : Option String :=
  match (sortCountDesc (fun g => games.count g) (distinctInOrder games)).take 3 with
  | g0 :: g1 :: _ => some (g0 ++ " / " ++ g1 ++ " Mix")
  | _ => none

/-- `int(sum(viewer_counts) / len(viewer_counts)) if viewer_counts else 0`. -/
def avgViewers (viewerCounts : List Int) : Int :=
  if viewerCounts.isEmpty then 0 else viewerCounts.sum / (viewerCounts.length : Int)

/-- Branch 5: some member has a positive average viewer count — label
`"Variety Community (<n> channels)"`. -/
def branch5 (viewerCounts : List Int) (numChannels : Nat) : Option String :=
  if 0 < avgViewers viewerCounts then
    some ("Variety Community (" ++ toString numChannels ++ " channels)")
  else none

/-- `ClusterTagger._generate_label` (label component): the fixed,
order-sensitive decision cascade; the final fallback is `"Community <id>"`. -/
def generate_label (comm_id : Int) (channels : List String)
    (md : List (String × Meta)) : String :=
  match branch1 (gamesOf channels md) channels.length with
  | some l => l
  | none =>
      match branch2 (gamesOf channels md) (langsOf channels md) channels.length with
      | some l => l
      | none =>
          match branch3 (langsOf channels md) channels.length with
          | some l => l
          | none =>
              match branch4 (gamesOf channels md) with
              | some l => l
              | none =>
                  match branch5 (viewersOf channels md) channels.length with
                  | some l => l
                  | none => "Community " ++ toString comm_id

theorem mostCommonAux_keep (cnt : String → Nat) (x : String) :
    ∀ (l : List String), (∀ y ∈ l, cnt y ≤ cnt x) →
      mostCommonAux cnt l (some (x, cnt x)) = some (x, cnt x) := by
  intro l
  induction l with
  | nil => intro _; rfl
  | cons y ys ih =>
      intro hle
      have hy : cnt y ≤ cnt x := hle y (List.mem_cons_self _ _)
      have hys : ∀ z ∈ ys, cnt z ≤ cnt x :=
        fun z hz => hle z (List.mem_cons_of_mem _ hz)
      rw [mostCommonAux]
      simp only [if_neg (not_lt.mpr hy)]
      exact ih hys

theorem mostCommonAux_strict (cnt : String → Nat) (x : String) :
    ∀ (l : List String) (acc : Option (String × Nat)),
      (∀ y ∈ l, cnt y ≤ cnt x) → (∀ y ∈ l, y ≠ x → cnt y < cnt x) → x ∈ l →
      (acc = none ∨ ∃ z cz, acc = some (z, cz) ∧ cz < cnt x) →
      mostCommonAux cnt l acc = some (x, cnt x) := by
  intro l
  induction l with
  | nil => intro acc _ _ hx; exact absurd hx (List.not_mem_nil x)
  | cons y ys ih =>
      intro acc hle hstrict hx hacc
      have hys_le : ∀ z ∈ ys, cnt z ≤ cnt x :=
        fun z hz => hle z (List.mem_cons_of_mem _ hz)
      have hys_strict : ∀ z ∈ ys, z ≠ x → cnt z < cnt x :=
        fun z hz => hstrict z (List.mem_cons_of_mem _ hz)
      by_cases hyx : y = x
      · subst hyx
        rcases hacc with hnone | ⟨z, cz, hsome, hlt⟩
        · subst hnone
          rw [mostCommonAux]
          exact mostCommonAux_keep cnt y ys hys_le
        · subst hsome
          rw [mostCommonAux]
          simp only [if_pos hlt]
          exact mostCommonAux_keep cnt y ys hys_le
      · have hx2 : x ∈ ys := by
          rcases List.mem_cons.mp hx with h | h
          · exact absurd h.symm hyx
          · exact h
        have hylt : cnt y < cnt x := hstrict y (List.mem_cons_self _ _) hyx
        rcases hacc with hnone | ⟨z, cz, hsome, hlt⟩
        · subst hnone
          rw [mostCommonAux]
          exact ih _ hys_le hys_strict hx2 (Or.inr ⟨y, cnt y, rfl, hylt⟩)
        · subst hsome
          rw [mostCommonAux]
          by_cases hgt : cnt y > cz
          · simp only [if_pos hgt]
            exact ih _ hys_le hys_strict hx2 (Or.inr ⟨y, cnt y, rfl, hylt⟩)
          · simp only [if_neg hgt]
            exact ih _ hys_le hys_strict hx2 (Or.inr ⟨z, cz, rfl, hlt⟩)

/-- If `x` has strictly more occurrences than every other element of `l`,
the most-common scan returns `x` with its count. -/
theorem mostCommon_strict_max {l : List String} {x : String} (hx : x ∈ l)
    (hstrict : ∀ y ∈ l, y ≠ x → l.count y < l.count x) :
    mostCommon l = some (x, l.count x) := by
  have hle : ∀ y ∈ l, l.count y ≤ l.count x := by
    intro y hy
    by_cases h : y = x
    · rw [h]
    · exact le_of_lt (hstrict y hy h)
  exact mostCommonAux_strict (fun s => l.count s) x l none hle hstrict hx (Or.inl rfl)

theorem count_add_count_le_length {l : List String} {a b : String} (hab : a ≠ b) :
    l.count a + l.count b ≤ l.length := by
  induction l with
  | nil => simp
  | cons x xs ih =>
      simp only [List.count_cons, List.length_cons, beq_iff_eq]
      by_cases hxa : x = a
      · have hxb : ¬ x = b := fun h => hab (hxa.symm.trans h)
        rw [if_pos hxa, if_neg hxb]
        omega
      · by_cases hxb : x = b
        · rw [if_pos hxb, if_neg hxa]
          omega
        · rw [if_neg hxa, if_neg hxb]
          omega

/-- C8: if some category's occurrence count among a community's members
reaches 60% of the TOTAL member count (members without a known category
included in the denominator), `_generate_label` returns exactly that
category name. -/
theorem generate_label_dominant_game (comm_id : Int) (channels : List String)
    (md : List (String × Meta)) (c : String)
    (hc : c ∈ gamesOf channels md)
    (hshare : 60 * channels.length ≤ 100 * (gamesOf channels md).count c) :
    generate_label comm_id channels md = c := by
  set games := gamesOf channels md with hgames
  have hcount_pos : 1 ≤ games.count c := List.count_pos_iff.mpr hc
  have hglen : games.length ≤ channels.length := List.length_filterMap_le _ _
  have hstrict : ∀ y ∈ games, y ≠ c → games.count y < games.count c := by
    intro y _ hyc
    have hsum : games.count y + games.count c ≤ games.length :=
      count_add_count_le_length hyc
    omega
  have hmc : mostCommon games = some (c, games.count c) :=
    mostCommon_strict_max hc hstrict
  have hb1 : branch1 games channels.length = some c := by
    rw [branch1, hmc]
    simp only [if_pos hshare]
  rw [generate_label, ← hgames, hb1]

def mdValorant : List (String × Meta) :=
  [("ch1", { game := some "Valorant", viewers := some 100 }),
   ("ch2", { game := some "Valorant", viewers := some 200 }),
   ("ch3", { game := some "Valorant", viewers := some 150 }),
   ("ch4", { game := some "Valorant", viewers := some 300 }),
   ("ch5", { game := some "CS2", viewers := some 50 })]

theorem generate_label_dominant_game_witness :
    generate_label 0 ["ch1", "ch2", "ch3", "ch4", "ch5"] mdValorant = "Valorant" :=
  generate_label_dominant_game 0 ["ch1", "ch2", "ch3", "ch4", "ch5"] mdValorant
    "Valorant" (by decide) (by decide)

/-- C9: when every metadata record was produced by
`_ingest_snapshot` (which stores `viewer_count`/`game_name` and no
`language` key, while the tagger reads `game`/`language`/`viewers`), the
collected games and languages lists are empty and the label is the
generic `"Community <id>"` (in particular it is one of the two
non-category, non-language labels). -/
theorem generate_label_ingested_metadata (comm_id : Int)
    (channels : List String) (md : List (String × Meta))
    (hmd : ∀ p ∈ md, ∃ r, p.2 = metaOfRecord r) :
    gamesOf channels md = [] ∧ langsOf channels md = [] ∧
    (generate_label comm_id channels md = "Community " ++ toString comm_id ∨
     generate_label comm_id channels md =
       "Variety Community (" ++ toString channels.length ++ " channels)") := by
  have hmeta : ∀ ch m, lookupM md ch = some m → m.game = none ∧
      m.language = none ∧ m.viewers = none := by
    intro ch m hm
    rcases hmd (ch, m) (lookupM_mem hm) with ⟨r, hr⟩
    have hr2 : m = metaOfRecord r := hr
    rw [hr2]
    exact ⟨rfl, rfl, rfl⟩
  have hg : gamesOf channels md = [] := by
    rw [gamesOf, List.filterMap_eq_nil_iff]
    intro ch _
    rcases hl : lookupM md ch with _ | m
    · simp [gameOfChannel, hl]
    · have hgame := (hmeta ch m hl).1
      simp [gameOfChannel, hl, hgame]
  have hlang : langsOf channels md = [] := by
    rw [langsOf, List.filterMap_eq_nil_iff]
    intro ch _
    rcases hl : lookupM md ch with _ | m
    · simp [langOfChannel, hl]
    · have hla := (hmeta ch m hl).2.1
      simp [langOfChannel, hl, hla]
  have hv : viewersOf channels md = [] := by
    rw [viewersOf, List.filterMap_eq_nil_iff]
    intro ch _
    rcases hl : lookupM md ch with _ | m
    · simp [viewerCountOfChannel, hl]
    · have hvw := (hmeta ch m hl).2.2
      simp [viewerCountOfChannel, hl, hvw]
  refine ⟨hg, hlang, Or.inl ?_⟩
  rw [generate_label, hg, hlang, hv]
  rfl

def mdIngested : List (String × Meta) := [("x", metaOfRecord snapA)]

theorem generate_label_ingested_metadata_witness :
    gamesOf ["x", "y"] mdIngested = [] ∧ langsOf ["x", "y"] mdIngested = [] ∧
    (generate_label 7 ["x", "y"] mdIngested = "Community " ++ toString (7 : Int) ∨
     generate_label 7 ["x", "y"] mdIngested =
       "Variety Community (" ++ toString (["x", "y"] : List String).length ++
         " channels)") :=
  generate_label_ingested_metadata 7 ["x", "y"] mdIngested
    (by
      intro p hp
      rcases List.mem_singleton.mp hp with h
      exact ⟨snapA, by rw [h]⟩)

end ViewerAtlas
